import Mathlib

/-!
Verification of the cryptopals-rs core (raw_bytes.rs, cipher.rs, aes.rs).

Embedding conventions:
* A Rust `u8` byte is a `Nat` (theorems carry `< 256` bounds where the value
  range matters).
* A Rust `char` is its Unicode scalar value as a `Nat` (so `'0'` is 48,
  `'a'` is 97, `'A'` is 65, `'='` is 61, `'+'` is 43, `'/'` is 47).
  Rust's `c as u8` truncation never occurs on the paths modelled here.
* A `RawBytes` value is the `List Nat` of its bytes; a `String` is the
  `List Nat` of its characters' code points.
* `Nat` subtraction is truncated where Rust `u8`/`usize` subtraction would
  panic on underflow; every theorem below stays on inputs where the two
  semantics agree, except where a comment says otherwise.
* Rust iterator combinators are translated structurally: `step_by(2)` is
  `stepBy2`, `chunks(n)` is `chunks n` (fuelled by the list length, which
  bounds the recursion depth exactly), `zip` is `List.zip`, `cycle` is
  indexing modulo the key length (empty-key cycle is the empty iterator).
-/

/-- Characters at even positions: Rust `iter.step_by(2)`. -/
def stepBy2 {α : Type} : List α → List α
  | [] => []
  | [a] => [a]
  | a :: _ :: t => a :: stepBy2 t

/-- Nibble decoder closure `to_num` from `RawBytes::from_hex`.
If-chains on char ranges; the final branch is `10 + c - 'A'`
(truncated `Nat` subtraction standing in for Rust `u8` arithmetic). -/
def to_num (c : Nat) : Nat :=
  if 48 ≤ c ∧ c ≤ 57 then c - 48
  else if 97 ≤ c ∧ c ≤ 122 then 10 + c - 97
  else 10 + c - 65

/-- `RawBytes::from_hex`: zip the even-position chars with the odd-position
chars (`skip(1).step_by(2)`), decode each pair as `16 * hi + lo`.
The zip truncates, so an odd-length final character is dropped; the
function has no error path (its Rust type is `Self`, not `Result`). -/
def from_hex (s : List Nat) : List Nat :=
  (List.zip (stepBy2 s) (stepBy2 s.tail)).map (fun p => 16 * to_num p.1 + to_num p.2)

/-- One output character of `format "{:02x}"`: value `n < 16` to lowercase
hex digit code. -/
def hexDigit (n : Nat) : Nat :=
  if n < 10 then 48 + n else 97 + (n - 10)

/-- `RawBytes::to_hex`: each byte becomes two lowercase hex digits,
big nibble first. -/
def to_hex (bytes : List Nat) : List Nat :=
  bytes.flatMap (fun b => [hexDigit (b / 16), hexDigit (b % 16)])

theorem to_num_hexDigit : ∀ n < 16, to_num (hexDigit n) = n := by
  decide

theorem from_hex_cons_cons (a b : Nat) (t : List Nat) :
    from_hex (a :: b :: t) = (16 * to_num a + to_num b) :: from_hex t := by
  unfold from_hex
  cases t <;> simp [stepBy2]

theorem from_hex_to_hex (B : List Nat) (h : ∀ b ∈ B, b < 256) :
    from_hex (to_hex B) = B := by
  induction B with
  | nil => rfl
  | cons b t ih =>
    have hb : b < 256 := h b (List.mem_cons_self b t)
    have ht : ∀ x ∈ t, x < 256 := fun x hx => h x (List.mem_cons_of_mem b hx)
    have hhi : b / 16 < 16 := Nat.div_lt_of_lt_mul hb
    have hlo : b % 16 < 16 := Nat.mod_lt b (by norm_num)
    calc from_hex (to_hex (b :: t))
        = (16 * to_num (hexDigit (b / 16)) + to_num (hexDigit (b % 16))) :: from_hex (to_hex t) := by
          simp [to_hex, from_hex_cons_cons]
      _ = b :: t := by
          rw [to_num_hexDigit _ hhi, to_num_hexDigit _ hlo, ih ht]

          congr 1
          omega

theorem from_hex_odd : ∀ (s : List Nat), s.length % 2 = 1 → from_hex s = from_hex s.dropLast
  | [], h => by simp at h
  | [a], _ => by simp [from_hex, stepBy2]
  | a :: b :: t, h => by
      have ht : t.length % 2 = 1 := by
        have : (a :: b :: t).length = t.length + 2 := by simp
        omega
      have hne : t ≠ [] := by
        intro e
        rw [e] at ht
        simp at ht
      have hdrop : (a :: b :: t).dropLast = a :: b :: t.dropLast := by
        cases t with
        | nil => exact absurd rfl hne
        | cons c u => rfl
      rw [from_hex_cons_cons, hdrop, from_hex_cons_cons, from_hex_odd t ht]

/-- Claim C6 (corrected): `from_hex` cannot fail — its Rust type is `Self`,
not `Result`, so no `MalformedInput` error exists. An odd-length input is
decoded as if its final character were absent (the truncating zip drops it),
and a character outside `[0-9a-fA-F]` is pushed through the fallback
arithmetic instead of being rejected: `from_hex "0z"` yields the byte 35. -/
theorem claim_C6 :
    (∀ s : List Nat, s.length % 2 = 1 → from_hex s = from_hex s.dropLast) ∧
      from_hex [48, 122] = [35] :=
  ⟨from_hex_odd, by decide⟩

theorem claim_C6_witness :
    ([48] : List Nat).length % 2 = 1 ∧
      from_hex [48] = from_hex (([48] : List Nat).dropLast) :=
  ⟨by decide, claim_C6.1 [48] (by decide)⟩

/-- Claim C6 counterexample: the odd-length hex string "0" decodes to the
empty buffer — a successful value — whereas the claim asserts a
`MalformedInput` error is returned to the caller. -/
theorem claim_C6_counterexample : from_hex [48] = [] := by decide

/-- `impl BitXor for RawBytes`: zip the two byte vectors and XOR
element-wise.  The zip silently truncates to the shorter buffer; there is
no length check and no error path. -/
def bitxor (a b : List Nat) : List Nat :=
  (a.zip b).map (fun p => p.1 ^^^ p.2)

/-- Claim C7 (corrected): the strict XOR does not fail on unequal lengths —
it truncates to the shorter buffer (`zip` semantics).  For equal lengths it
is the element-wise XOR and `xor (xor A B) B = A` holds.  (The operation
that does check lengths is `hamming_distance`, not XOR.) -/
theorem claim_C7 :
    ∀ A B : List Nat,
      (bitxor A B).length = min A.length B.length ∧
        (A.length = B.length → bitxor (bitxor A B) B = A) := by
  intro A B
  constructor
  · simp [bitxor]
  · intro hlen
    induction A generalizing B with
    | nil => cases B <;> simp [bitxor]
    | cons a t ih =>
      cases B with
      | nil => simp at hlen
      | cons b u =>
        have : t.length = u.length := by simpa using hlen
        have htail := ih u this
        simp only [bitxor, List.zip_cons_cons, List.map_cons] at htail ⊢
        rw [Nat.xor_cancel_right]
        exact congrArg _ htail

theorem claim_C7_witness :
    (bitxor [1, 2] [3, 4]).length = min ([1, 2] : List Nat).length ([3, 4] : List Nat).length ∧
      bitxor (bitxor [1, 2] [3, 4]) [3, 4] = [1, 2] :=
  ⟨(claim_C7 [1, 2] [3, 4]).1, (claim_C7 [1, 2] [3, 4]).2 (by decide)⟩

/-- Claim C7 counterexample: XOR of the length-2 buffer `[0, 1]` with the
length-1 buffer `[0]` succeeds and returns the truncated buffer `[0]`,
whereas the claim asserts a `LengthMismatch` error for unequal lengths. -/
theorem claim_C7_counterexample :
    bitxor [0, 1] [0] = [0] ∧ ¬(bitxor [0, 1] [0]).length = ([0, 1] : List Nat).length := by
  decide

/-- `cipher::repeating_key_xor`: zip the data with `key.iter().cycle()`.
Cycling a nonempty key pairs data byte `j` with `key[j % key.len()]`;
cycling an empty key is the empty iterator, so the zip — and hence the
result — is empty. -/
def repeating_key_xor (rb key : List Nat) : List Nat :=
  if key = [] then []
  else (List.range rb.length).map (fun j => rb.getD j 0 ^^^ key.getD (j % key.length) 0)

/-- Claim C9 (corrected): for a nonempty key the result has the buffer's
length and byte `j` is `B[j] XOR K[j mod |K|]`; for the empty key the
result is the empty buffer (zip with an empty cycle), not a buffer of
`B`'s length. -/
theorem claim_C9 :
    ∀ (B K : List Nat) (j : Nat), K ≠ [] → j < B.length →
      (repeating_key_xor B K).length = B.length ∧
        (repeating_key_xor B K).getD j 0 = B.getD j 0 ^^^ K.getD (j % K.length) 0 := by
  intro B K j hK hj
  constructor
  · simp [repeating_key_xor, hK]
  · have hlen : (List.range B.length).length = B.length := List.length_range B.length
    simp only [repeating_key_xor, if_neg hK]
    rw [List.getD_eq_getElem _ 0 (by simpa using hj)]
    simp [hj]

theorem claim_C9_witness :
    (repeating_key_xor [1, 2, 3] [7]).length = ([1, 2, 3] : List Nat).length ∧
      (repeating_key_xor [1, 2, 3] [7]).getD 2 0 =
        ([1, 2, 3] : List Nat).getD 2 0 ^^^ ([7] : List Nat).getD (2 % ([7] : List Nat).length) 0 :=
  claim_C9 [1, 2, 3] [7] 2 (by decide) (by decide)

/-- Claim C9 counterexample: with an empty key and the nonempty buffer
`[5]`, the result is the empty buffer, not a buffer of length 1 as the
claim ("no length precondition on K, including … empty") requires. -/
theorem claim_C9_counterexample :
    repeating_key_xor [5] [] = [] ∧
      ¬(repeating_key_xor [5] []).length = ([5] : List Nat).length := by
  decide

/-- Rust `char::is_ascii_whitespace` on a byte-valued char:
space, horizontal tab, line feed, form feed, carriage return. -/
def is_ascii_whitespace (c : Nat) : Bool :=
  c = 32 || c = 9 || c = 10 || c = 12 || c = 13

/-- Rust `char::is_ascii_lowercase` on a byte-valued char. -/
def is_ascii_lowercase (c : Nat) : Bool :=
  97 ≤ c && c ≤ 122

/-- Rust `char::is_ascii_uppercase` on a byte-valued char. -/
def is_ascii_uppercase (c : Nat) : Bool :=
  65 ≤ c && c ≤ 90

/-- Rust std `char::is_numeric` (Unicode general categories Nd/Nl/No)
restricted to code points below 256: the ASCII digits plus the Latin-1
superscripts and vulgar fractions ² ³ ¹ ¼ ½ ¾ (0xB2, 0xB3, 0xB9, 0xBC,
0xBD, 0xBE).  The source calls this on `*b as char` with `b : u8`, so only
code points below 256 are reachable. -/
def is_numeric_char (c : Nat) : Bool :=
  (48 ≤ c && c ≤ 57) || c = 178 || c = 179 || c = 185 || c = 188 || c = 189 || c = 190

/-- `cipher::score_for_english`: fold over the bytes, mutating `score`.
Each byte runs through TWO consecutive `if` chains: the letter-bonus chain
for 'e'/'t'/'o'/'i'/'n' (codes 101/116/111/105/110) and then — not an
`else`! — the whitespace/lowercase/uppercase/numeric/default chain. -/
def score_for_english (l : List Nat) : Int :=
  l.foldl
    (fun score b =>
      (score +
          (if b = 101 then 10
           else if b = 116 then 9
           else if b = 111 then 8
           else if b = 105 then 7
           else if b = 110 then 6
           else 0)) +
        (if is_ascii_whitespace b then 5
         else if is_ascii_lowercase b then 4
         else if is_ascii_uppercase b then 2
         else if is_numeric_char b then 1
         else -2))
    0

/-- Letter bonus of the amended claim: +10/+9/+8/+7/+6 for e/t/o/i/n,
else 0. -/
def letterBonus (b : Nat) : Int :=
  if b = 101 then 10
  else if b = 116 then 9
  else if b = 111 then 8
  else if b = 105 then 7
  else if b = 110 then 6
  else 0

/-- General-case bucket of the amended claim: +5 whitespace, else +4
lowercase, else +2 uppercase, else +1 Unicode-numeric (ASCII digits plus
bytes 0xB2/0xB3/0xB9/0xBC/0xBD/0xBE), else −2. -/
def bucketBonus (b : Nat) : Int :=
  if is_ascii_whitespace b then 5
  else if is_ascii_lowercase b then 4
  else if is_ascii_uppercase b then 2
  else if is_numeric_char b then 1
  else -2

/-- Per-byte score of the amended claim: the letter bonus and the bucket
bonus STACK — the two chains are independent `if` statements. -/
def specScoreByte (b : Nat) : Int :=
  letterBonus b + bucketBonus b

theorem score_foldl_eq (l : List Nat) :
    ∀ s0 : Int,
      l.foldl
        (fun score b =>
          (score +
              (if b = 101 then 10
               else if b = 116 then 9
               else if b = 111 then 8
               else if b = 105 then 7
               else if b = 110 then 6
               else 0)) +
            (if is_ascii_whitespace b then 5
             else if is_ascii_lowercase b then 4
             else if is_ascii_uppercase b then 2
             else if is_numeric_char b then 1
             else -2))
        s0 = s0 + (l.map specScoreByte).sum := by
  induction l with
  | nil => intro s0; simp
  | cons b t ih =>
    intro s0
    simp only [List.foldl_cons, List.map_cons, List.sum_cons]
    rw [ih]
    simp only [specScoreByte, letterBonus, bucketBonus]
    ring

/-- Claim C2 (corrected): the score is the sum over bytes of the letter
bonus (10/9/8/7/6 for e/t/o/i/n) PLUS the general-case bucket — the two
`if` chains are sequential statements, not chained with `else`, so the
five letters also receive their bucket bonus (+4 lowercase), and the digit
bucket tests Unicode `is_numeric`, not just ASCII digits.  In particular a
byte equal to 'e' contributes 14, not 10. -/
theorem claim_C2 :
    (∀ l : List Nat, score_for_english l = (l.map specScoreByte).sum) ∧
      score_for_english [101] = 14 := by
  constructor
  · intro l
    have := score_foldl_eq l 0
    simpa [score_for_english] using this
  · decide

/-- Claim C2 counterexample: the buffer holding the single byte 'e'
scores 14 (letter bonus 10 plus lowercase bonus 4), not the 10 the claim
asserts. -/
theorem claim_C2_counterexample :
    score_for_english [101] = 14 ∧ ¬score_for_english [101] = 10 := by
  decide

/-- `AesByte::xtime`: shift left one bit in `u8` (the top bit is discarded
by the wrap, hence `% 256`), XOR with 0x1b when the discarded bit was set. -/
def xtime (n : Nat) : Nat :=
  if n &&& 0x80 ≠ 0 then ((n <<< 1) % 256) ^^^ 0x1b else (n <<< 1) % 256

/-- The `while m > 0` loop of `impl Mul for AesByte`: double the running
multiplier, XOR it into the accumulator when the current low bit of `m` is
set, then shift `m` right.  The extra fuel argument only bounds the
recursion: the loop runs `⌊log₂ m⌋ + 1 ≤ fuel` times whenever `m < fuel`
(callers pass `fuel := b` with `m = b >>> 1`), and it exits through the
`m = 0` test before the fuel can reach 0. -/
def aesMulLoop : Nat → Nat → Nat → Nat → Nat
  | 0, _, _, ans => ans
  | fuel + 1, multiplier, m, ans =>
    if m = 0 then ans
    else
      let multiplier2 := xtime multiplier
      let ans2 := if m &&& 1 = 1 then ans ^^^ multiplier2 else ans
      aesMulLoop fuel multiplier2 (m >>> 1) ans2

/-- `impl Mul for AesByte`: handle bit 0 of `b` with the undoubled
multiplier, then run the doubling loop over the remaining bits. -/
def aesByteMul (a b : Nat) : Nat :=
  aesMulLoop b a (b >>> 1) (if b &&& 1 = 1 then a else 0)

/-- A 4-byte AES word `(a0, a1, a2, a3)`. -/
abbrev Word4 : Type := Nat × Nat × Nat × Nat

/-- `AesWord::dot`: sum (GF(2^8) addition = XOR) of the four pairwise
GF(2^8) products. -/
def word_dot (w1 w2 : Word4) : Nat :=
  match w1, w2 with
  | (a0, a1, a2, a3), (b0, b1, b2, b3) =>
    aesByteMul a0 b0 ^^^ aesByteMul a1 b1 ^^^ aesByteMul a2 b2 ^^^ aesByteMul a3 b3

/-- `AesWord::get_mutiplier` (source spelling): the four cyclic rotations
of the left operand used as matrix rows. -/
def get_mutiplier (n : Word4) : Word4 × Word4 × Word4 × Word4 :=
  match n with
  | (a0, a1, a2, a3) =>
    ((a0, a3, a2, a1), (a1, a0, a3, a2), (a2, a1, a0, a3), (a3, a2, a1, a0))

/-- `impl Mul for AesWord`: dot each rotation row against the right
operand. -/
def word_mul (w1 w2 : Word4) : Word4 :=
  match get_mutiplier w1 with
  | (m1, m2, m3, m4) => (word_dot m1 w2, word_dot m2 w2, word_dot m3 w2, word_dot m4 w2)

/-- Claim C5 (confirmed): word multiplication returns the four GF(2^8) dot
products of the rotations `(a0,a3,a2,a1)`, `(a1,a0,a3,a2)`, `(a2,a1,a0,a3)`,
`(a3,a2,a1,a0)` against `B`, and the MixColumns/InvMixColumns column pair
multiplies to `(1, 0, 0, 0)`. -/
theorem claim_C5 :
    (∀ a0 a1 a2 a3 b0 b1 b2 b3 : Nat,
        word_mul (a0, a1, a2, a3) (b0, b1, b2, b3) =
          (word_dot (a0, a3, a2, a1) (b0, b1, b2, b3),
            word_dot (a1, a0, a3, a2) (b0, b1, b2, b3),
            word_dot (a2, a1, a0, a3) (b0, b1, b2, b3),
            word_dot (a3, a2, a1, a0) (b0, b1, b2, b3))) ∧
      word_mul (0x02, 0x01, 0x01, 0x03) (0x0e, 0x09, 0x0d, 0x0b) = (0x01, 0x00, 0x00, 0x00) :=
  ⟨fun _ _ _ _ _ _ _ _ => rfl, by decide⟩

/-- The `similar_score` closure of `cipher::aes_128_ecb_detect`: count the
non-overlapping 16-byte blocks (`len / 16`, trailing partial block
ignored), insert each block `skip(16*i).take(16)` into a set, and return
`total_blocks - |set|` (the number of duplicate blocks). -/
def similar_score (rb : List Nat) : Nat :=
  rb.length / 16 -
    ((List.range (rb.length / 16)).map (fun i => (rb.drop (16 * i)).take 16)).dedup.length

/-- One sorted insertion of Rust's stable `sort_by_key(|x| x.2)`: the new
element goes before the first element whose key (the score, third
component) is ≥ its own, so equal-key elements keep their input order. -/
def insertByScore (a : List Nat × Nat × Nat) :
    List (List Nat × Nat × Nat) → List (List Nat × Nat × Nat)
  | [] => [a]
  | b :: l => if a.2.2 ≤ b.2.2 then a :: b :: l else b :: insertByScore a l

/-- Rust `Vec::sort_by_key` (stable, ascending) as insertion sort. -/
def sortByScore : List (List Nat × Nat × Nat) → List (List Nat × Nat × Nat)
  | [] => []
  | a :: l => insertByScore a (sortByScore l)

/-- The scored entries before sorting: `(buffer, index, similar_score)` in
input order (`iter().enumerate()`). -/
def scoredEntries (rbs : List (List Nat)) : List (List Nat × Nat × Nat) :=
  rbs.enum.map (fun p => (p.2, p.1, similar_score p.2))

/-- `cipher::aes_128_ecb_detect`: score every buffer, sort ascending by
score (stable), then reverse. -/
def aes_128_ecb_detect (rbs : List (List Nat)) : List (List Nat × Nat × Nat) :=
  (sortByScore (scoredEntries rbs)).reverse

/-- Strict order on entries: by score, ties by input index. -/
def entryLt (x y : List Nat × Nat × Nat) : Prop :=
  x.2.2 < y.2.2 ∨ (x.2.2 = y.2.2 ∧ x.2.1 < y.2.1)

theorem entryLt_trans {x y z : List Nat × Nat × Nat} :
    entryLt x y → entryLt y z → entryLt x z := by
  unfold entryLt
  omega

theorem insertByScore_perm (a : List Nat × Nat × Nat) :
    ∀ l, (insertByScore a l).Perm (a :: l)
  | [] => List.Perm.refl _
  | b :: l => by
      unfold insertByScore
      split
      · exact List.Perm.refl _
      · exact ((insertByScore_perm a l).cons b).trans (List.Perm.swap a b l)

theorem sortByScore_perm : ∀ l, (sortByScore l).Perm l
  | [] => List.Perm.refl _
  | a :: l => (insertByScore_perm a (sortByScore l)).trans ((sortByScore_perm l).cons a)

theorem insertByScore_sorted (a : List Nat × Nat × Nat) :
    ∀ l, List.Pairwise entryLt l → (∀ b ∈ l, a.2.1 < b.2.1) →
      List.Pairwise entryLt (insertByScore a l)
  | [], _, _ => List.pairwise_singleton _ a
  | b :: l, hp, hid => by
      unfold insertByScore
      split
      · rename_i hle
        have hab : entryLt a b := by
          have := hid b (List.mem_cons_self b l)
          unfold entryLt
          omega
        refine List.Pairwise.cons ?_ hp
        intro c hc
        rcases List.mem_cons.mp hc with rfl | hcl
        · exact hab
        · exact entryLt_trans hab (List.rel_of_pairwise_cons hp hcl)
      · rename_i hgt
        have hba : entryLt b a := by
          unfold entryLt
          omega
        refine List.Pairwise.cons ?_
          (insertByScore_sorted a l hp.of_cons
            (fun c hc => hid c (List.mem_cons_of_mem b hc)))
        intro c hc
        rcases List.mem_cons.mp ((insertByScore_perm a l).mem_iff.mp hc) with rfl | hcl
        · exact hba
        · exact List.rel_of_pairwise_cons hp hcl

theorem sortByScore_sorted :
    ∀ l, List.Pairwise (fun x y : List Nat × Nat × Nat => x.2.1 < y.2.1) l →
      List.Pairwise entryLt (sortByScore l)
  | [], _ => List.Pairwise.nil
  | a :: l, hp => by
      refine insertByScore_sorted a (sortByScore l) (sortByScore_sorted l hp.of_cons) ?_
      intro b hb
      exact List.rel_of_pairwise_cons hp ((sortByScore_perm l).mem_iff.mp hb)

theorem pairwise_fst_lt_enumFrom {α : Type} :
    ∀ (n : Nat) (l : List α),
      List.Pairwise (fun p q : Nat × α => p.1 < q.1) (List.enumFrom n l)
  | _, [] => List.Pairwise.nil
  | n, a :: l => by
      refine List.Pairwise.cons ?_ (pairwise_fst_lt_enumFrom (n + 1) l)
      intro q hq
      obtain ⟨i, x⟩ := q
      have hle : n + 1 ≤ i :=
        (List.mk_mem_enumFrom_iff_le_and_getElem?_sub.mp hq).1
      simp only
      omega

theorem scoredEntries_pairwise (rbs : List (List Nat)) :
    List.Pairwise (fun x y : List Nat × Nat × Nat => x.2.1 < y.2.1) (scoredEntries rbs) := by
  unfold scoredEntries List.enum
  rw [List.pairwise_map]
  exact (pairwise_fst_lt_enumFrom 0 rbs).imp (fun h => h)

/-- Claim C4 (corrected): the detector assigns each buffer the duplicate
count `totalBlocks − distinctBlocks` over its non-overlapping 16-byte
blocks (`scoredEntries`), and returns those entries sorted strictly
descending by (score, input index) — so ties between equal counts come out
in REVERSE input order, because the code runs a stable ascending sort and
then reverses the whole vector. -/
theorem claim_C4 :
    ∀ rbs : List (List Nat),
      (aes_128_ecb_detect rbs).Perm (scoredEntries rbs) ∧
        List.Pairwise
          (fun x y : List Nat × Nat × Nat =>
            y.2.2 < x.2.2 ∨ (x.2.2 = y.2.2 ∧ y.2.1 < x.2.1))
          (aes_128_ecb_detect rbs) := by
  intro rbs
  constructor
  · exact (List.reverse_perm _).trans (sortByScore_perm _)
  · rw [aes_128_ecb_detect, List.pairwise_reverse]
    exact (sortByScore_sorted _ (scoredEntries_pairwise rbs)).imp
      (fun h => by unfold entryLt at h; omega)

/-- Claim C4 counterexample: the two buffers `[0]` and `[1]` both have
duplicate count 0; the detector returns the LATER input first
(`[([1],1,0), ([0],0,0)]`), not the original input order the claim's
tie-break asserts. -/
theorem claim_C4_counterexample :
    aes_128_ecb_detect [[0], [1]] = [([1], 1, 0), ([0], 0, 0)] ∧
      ¬aes_128_ecb_detect [[0], [1]] = [([0], 0, 0), ([1], 1, 0)] := by
  decide

/-- Itertools `chunks(k)` worker.  The fuel argument only bounds the
recursion depth: it starts at the list length, which dominates the number
of chunks, and every step consumes at least one element, so the fuel never
runs out before the list does. -/
def chunksF {α : Type} (k : Nat) : Nat → List α → List (List α)
  | _, [] => []
  | 0, _ :: _ => []
  | fuel + 1, a :: t => (a :: t.take (k - 1)) :: chunksF k fuel (t.drop (k - 1))

/-- Itertools `chunks(k)`: consecutive groups of `k` elements, the final
group possibly shorter. -/
def chunks {α : Type} (k : Nat) (l : List α) : List (List α) :=
  chunksF k l.length l

theorem chunksF_congr {α : Type} (k : Nat) :
    ∀ (fuel fuel' : Nat) (l : List α), l.length ≤ fuel → l.length ≤ fuel' →
      chunksF k fuel l = chunksF k fuel' l
  | fuel, fuel', [], _, _ => by cases fuel <;> cases fuel' <;> rfl
  | 0, _, _ :: _, h, _ => by simp at h
  | _ + 1, 0, _ :: _, _, h' => by simp at h'
  | fuel + 1, fuel' + 1, a :: t, h, h' => by
      simp only [chunksF]
      congr 1
      refine chunksF_congr k fuel fuel' (t.drop (k - 1)) ?_ ?_ <;>
        · simp only [List.length_drop]
          simp only [List.length_cons] at h h'
          omega

theorem chunks_cons {α : Type} (k : Nat) (a : α) (t : List α) :
    chunks k (a :: t) = (a :: t.take (k - 1)) :: chunks k (t.drop (k - 1)) := by
  unfold chunks
  simp only [List.length_cons, chunksF]
  congr 1
  refine chunksF_congr k t.length (t.drop (k - 1)).length (t.drop (k - 1)) ?_ ?_ <;>
    simp [List.length_drop]

theorem chunks_length {α : Type} (k : Nat) (hk : 1 ≤ k) :
    ∀ l : List α, (chunks k l).length = (l.length + k - 1) / k
  | [] => by
      have h0 : chunks k ([] : List α) = [] := rfl
      rw [h0]
      simp only [List.length_nil]
      exact (Nat.div_eq_of_lt (by omega)).symm
  | a :: t => by
      rw [chunks_cons, List.length_cons, chunks_length k hk (t.drop (k - 1)),
        List.length_drop]
      simp only [List.length_cons]
      by_cases hm : k - 1 ≤ t.length
      · have h1 : t.length - (k - 1) + k - 1 = t.length := by omega
        have h2 : t.length + 1 + k - 1 = t.length + k := by omega
        rw [h1, h2, Nat.add_div_right _ (by omega)]
      · have h1 : t.length - (k - 1) + k - 1 = k - 1 := by omega
        have h2 : t.length + 1 + k - 1 = t.length + k := by omega
        rw [h1, h2, Nat.add_div_right _ (by omega),
          Nat.div_eq_of_lt (by omega : k - 1 < k),
          Nat.div_eq_of_lt (by omega : t.length < k)]
termination_by l => l.length
decreasing_by simp only [List.length_drop, List.length_cons]; omega

/-- `RawBytes::hamming_distance_byte`: popcount of the XOR, summing
`(x >> i) & 1` for `i` in `0..8`. -/
def hamming_distance_byte (l h : Nat) : Nat :=
  ((List.range 8).map (fun i => ((l ^^^ h) >>> i) &&& 1)).sum

/-- `itertools::multizip` over four lists: truncates at the shortest. -/
def zip4 {α : Type} : List α → List α → List α → List α → List (α × α × α × α)
  | a :: as, b :: bs, c :: cs, d :: ds => (a, b, c, d) :: zip4 as bs cs ds
  | _, _, _, _ => []

/-- The per-keysize Hamming accumulation of
`cipher::repeating_key_find_best_keysize`: over the positions shared by
the four chunks, add the six pairwise byte distances divided by 6.
The Rust code computes this in `f64`; it is idealized here as exact
rational arithmetic (ℚ).  The claims settled below depend only on the
control flow, never on the rounded values. -/
def chunk_dist (c1 c2 c3 c4 : List Nat) : ℚ :=
  ((zip4 c1 c2 c3 c4).map (fun q =>
      ((hamming_distance_byte q.1 q.2.1 + hamming_distance_byte q.1 q.2.2.1 +
          hamming_distance_byte q.1 q.2.2.2 + hamming_distance_byte q.2.1 q.2.2.1 +
          hamming_distance_byte q.2.1 q.2.2.2 +
          hamming_distance_byte q.2.2.1 q.2.2.2 : Nat) : ℚ) / 6)).sum

/-- One iteration of the `for i in 2..40` loop: take the first four chunks
of size `i` (each taken with `it.next().unwrap()` — `none` here models the
unwrap PANIC when fewer than four chunks exist) and push
`(i, hamming / i)`. -/
def keysizeEntry (rb : List Nat) (i : Nat) : Option (Nat × ℚ) :=
  match chunks i rb with
  | c1 :: c2 :: c3 :: c4 :: _ => some (i, chunk_dist c1 c2 c3 c4 / (i : ℚ))
  | _ => none

/-- The whole loop: an aborted iteration (panic) aborts the function. -/
def bkLoop (rb : List Nat) : List Nat → Option (List (Nat × ℚ))
  | [] => some []
  | i :: rest =>
    match keysizeEntry rb i, bkLoop rb rest with
    | some e, some l => some (e :: l)
    | _, _ => none

/-- One sorted insertion of Rust's stable
`sort_by(partial_cmp on the distance)`. -/
def insertByDist (a : Nat × ℚ) : List (Nat × ℚ) → List (Nat × ℚ)
  | [] => [a]
  | b :: l => if a.2 ≤ b.2 then a :: b :: l else b :: insertByDist a l

/-- Stable ascending sort by normalized distance. -/
def sortByDist : List (Nat × ℚ) → List (Nat × ℚ)
  | [] => []
  | a :: l => insertByDist a (sortByDist l)

/-- `cipher::repeating_key_find_best_keysize`: run the loop over candidate
key sizes 2..39, then sort the `(keysize, distance)` pairs ascending by
distance.  `none` models a panic. -/
def repeating_key_find_best_keysize (rb : List Nat) : Option (List (Nat × ℚ)) :=
  (bkLoop rb (List.range' 2 38)).map sortByDist

theorem keysizeEntry_eq_none (rb : List Nat) (i : Nat)
    (h : (chunks i rb).length < 4) : keysizeEntry rb i = none := by
  unfold keysizeEntry
  rcases hc : chunks i rb with _ | ⟨c1, _ | ⟨c2, _ | ⟨c3, _ | ⟨c4, rest⟩⟩⟩⟩
  · rfl
  · rfl
  · rfl
  · rfl
  · rw [hc] at h
    simp at h
    omega

theorem keysizeEntry_isSome (rb : List Nat) (i : Nat)
    (h : 4 ≤ (chunks i rb).length) : (keysizeEntry rb i).isSome = true := by
  unfold keysizeEntry
  rcases hc : chunks i rb with _ | ⟨c1, _ | ⟨c2, _ | ⟨c3, _ | ⟨c4, rest⟩⟩⟩⟩
  · rw [hc] at h; simp at h
  · rw [hc] at h; simp at h
  · rw [hc] at h; simp at h
  · rw [hc] at h; simp at h
  · rfl

theorem bkLoop_eq_none (rb : List Nat) :
    ∀ is : List Nat, (∃ i ∈ is, keysizeEntry rb i = none) → bkLoop rb is = none
  | [], h => by simp at h
  | i :: rest, h => by
      rcases h with ⟨j, hj, hnone⟩
      rcases List.mem_cons.mp hj with rfl | hjr
      · unfold bkLoop
        rw [hnone]
      · unfold bkLoop
        rw [bkLoop_eq_none rb rest ⟨j, hjr, hnone⟩]
        rcases keysizeEntry rb i with _ | e <;> rfl

theorem bkLoop_isSome (rb : List Nat) :
    ∀ is : List Nat, (∀ i ∈ is, (keysizeEntry rb i).isSome = true) →
      (bkLoop rb is).isSome = true
  | [], _ => rfl
  | i :: rest, h => by
      have hi := h i (List.mem_cons_self i rest)
      have hr := bkLoop_isSome rb rest (fun j hj => h j (List.mem_cons_of_mem i hj))
      rcases he : keysizeEntry rb i with _ | e
      · rw [he] at hi; simp at hi
      · rcases hl : bkLoop rb rest with _ | l
        · rw [hl] at hr; simp at hr
        · unfold bkLoop
          rw [he, hl]
          rfl

/-- Claim C8 (corrected): when some candidate key size cannot produce four
chunks — which happens exactly when the buffer holds at most 3·39 = 117
bytes — the function PANICS (`Option::unwrap` on a missing chunk, modelled
by `none`); it does not return an `InsufficientData` error value.  And the
claimed 4·39 = 156-byte precondition is wrong in the other direction too:
every buffer of at least 118 bytes yields a full ranking, because the
fourth chunk of a large key size may be partial yet still present (the
pairwise comparison just truncates to the shortest chunk). -/
theorem claim_C8 :
    ∀ rb : List Nat,
      (rb.length ≤ 117 → repeating_key_find_best_keysize rb = none) ∧
        (118 ≤ rb.length → (repeating_key_find_best_keysize rb).isSome = true) := by
  intro rb
  constructor
  · intro hlen
    have h39 : (chunks 39 rb).length < 4 := by
      rw [chunks_length 39 (by omega) rb]
      omega
    unfold repeating_key_find_best_keysize
    rw [bkLoop_eq_none rb _ ⟨39, by decide, keysizeEntry_eq_none rb 39 h39⟩]
    rfl
  · intro hlen
    have hs : (bkLoop rb (List.range' 2 38)).isSome = true := by
      refine bkLoop_isSome rb _ (fun i hi => ?_)
      have hmem : 2 ≤ i ∧ i < 40 := by
        have := List.mem_range'_1.mp hi
        omega
      refine keysizeEntry_isSome rb i ?_
      rw [chunks_length i (by omega) rb]
      rw [Nat.le_div_iff_mul_le (by omega : 0 < i)]
      omega
    unfold repeating_key_find_best_keysize
    rcases hl : bkLoop rb (List.range' 2 38) with _ | l
    · rw [hl] at hs
      simp at hs
    · rfl

theorem claim_C8_witness :
    repeating_key_find_best_keysize (List.replicate 100 0) = none ∧
      (repeating_key_find_best_keysize (List.replicate 130 0)).isSome = true :=
  ⟨(claim_C8 (List.replicate 100 0)).1 (by simp),
    (claim_C8 (List.replicate 130 0)).2 (by simp)⟩

/-- Claim C8 counterexample: on a 5-byte buffer (fewer than 4·39 bytes,
four chunks impossible already at key size 2) the function aborts by
panic — modelled `none` — instead of returning an `InsufficientData`
error value to the caller as the claim asserts. -/
theorem claim_C8_counterexample :
    repeating_key_find_best_keysize (List.replicate 5 0) = none := by
  decide

/-- The `byte_to_bits` closure of `from_base64`: the 6 bits of a symbol,
most significant first (`(0..6).rev()`). -/
def bits6 (b : Nat) : List Nat :=
  (List.range 6).reverse.map (fun x => (b >>> x) &&& 1)

/-- The `byte_to_bits` closure of `to_base64`: the 8 bits of a byte, most
significant first (`(0..8).rev()`). -/
def bits8 (b : Nat) : List Nat :=
  (List.range 8).reverse.map (fun x => (b >>> x) &&& 1)

/-- The bit-accumulation fold shared by both codecs:
`ans += x * multiplier; multiplier /= 2` (multiplier starts at 128 when
regrouping into bytes, at 32 when regrouping into 6-bit symbols). -/
def accumBits : List Nat → Nat → Nat → Nat
  | [], _, ans => ans
  | x :: t, mult, ans => accumBits t (mult / 2) (ans + x * mult)

/-- The character-to-symbol map of `from_base64`: alphabet characters to
0..63, everything else (including `=`) to the sentinel 65 that the
`filter(|c| c < &65)` then removes. -/
def b64CharVal (c : Nat) : Nat :=
  if 65 ≤ c ∧ c ≤ 90 then c - 65
  else if 97 ≤ c ∧ c ≤ 122 then c - 97 + 26
  else if 48 ≤ c ∧ c ≤ 57 then c - 48 + 52
  else if c = 43 then 62
  else if c = 47 then 63
  else 65

/-- The symbol-to-character map of `to_base64`. -/
def b64ValChar (v : Nat) : Nat :=
  if v < 26 then v + 65
  else if v < 52 then v - 26 + 97
  else if v < 62 then v - 52 + 48
  else if v < 63 then 43
  else 47

/-- `str.chars().rev().take_while(|x| *x == '=').count()`. -/
def trailingEquals (s : List Nat) : Nat :=
  (s.reverse.takeWhile (fun c => c == 61)).length

/-- `RawBytes::from_base64`: map characters to symbol values, drop the
sentinels, expand each symbol to 6 bits, truncate to the bit count implied
by `(len − numEquals) * 6 − numEquals * 2` (note: computed from the TOTAL
character count, sentinels included), regroup into 8-bit chunks and fold
each chunk into a byte. -/
def from_base64 (s : List Nat) : List Nat :=
  (chunks 8
      ((((s.map b64CharVal).filter (fun v => v < 65)).flatMap bits6).take
        ((s.length - trailingEquals s) * 6 - trailingEquals s * 2))).map
    (fun c => accumBits c 128 0)

/-- `RawBytes::to_base64`: expand every byte to 8 bits, regroup into 6-bit
chunks (last one possibly short), fold each into a symbol, map through the
alphabet and append `=` padding (`3 - len % 3` when `len % 3 > 0`). -/
def to_base64 (bytes : List Nat) : List Nat :=
  ((chunks 6 (bytes.flatMap bits8)).map (fun c => b64ValChar (accumBits c 32 0))) ++
    List.replicate (if bytes.length % 3 > 0 then 3 - bytes.length % 3 else 0) 61

theorem bits6_def (b : Nat) :
    bits6 b =
      [b >>> 5 &&& 1, b >>> 4 &&& 1, b >>> 3 &&& 1, b >>> 2 &&& 1, b >>> 1 &&& 1,
        b >>> 0 &&& 1] := rfl

theorem bits8_def (b : Nat) :
    bits8 b =
      [b >>> 7 &&& 1, b >>> 6 &&& 1, b >>> 5 &&& 1, b >>> 4 &&& 1, b >>> 3 &&& 1,
        b >>> 2 &&& 1, b >>> 1 &&& 1, b >>> 0 &&& 1] := rfl

theorem length_bits8 (b : Nat) : (bits8 b).length = 8 := rfl

theorem mem_bits8_le_one (b : Nat) : ∀ x ∈ bits8 b, x ≤ 1 := by
  intro x hx
  rw [bits8_def] at hx
  simp only [List.mem_cons, List.not_mem_nil, or_false] at hx
  rcases hx with rfl | rfl | rfl | rfl | rfl | rfl | rfl | rfl <;> exact Nat.and_le_right

set_option maxRecDepth 4000 in
theorem accumBits_bits8 : ∀ b < 256, accumBits (bits8 b) 128 0 = b := by
  decide

theorem bits6_accumBits (c : List Nat) (h1 : ∀ x ∈ c, x ≤ 1) (h6 : c.length ≤ 6) :
    bits6 (accumBits c 32 0) = c ++ List.replicate (6 - c.length) 0 ∧
      accumBits c 32 0 < 64 := by
  rcases c with _ | ⟨a, _ | ⟨b, _ | ⟨c3, _ | ⟨d, _ | ⟨e, _ | ⟨f, _ | ⟨g, rest⟩⟩⟩⟩⟩⟩⟩
  · exact ⟨rfl, by decide⟩
  any_goals
    (simp only [List.length_cons] at h6; omega)
  all_goals
    simp only [List.mem_cons, List.not_mem_nil, or_false, forall_eq_or_imp,
      forall_eq] at h1
    simp only [accumBits, bits6_def, Nat.shiftRight_eq_div_pow, Nat.and_one_is_mod,
      List.length_cons]
    norm_num [List.replicate_succ, List.replicate_zero]
    omega

theorem chunks_props {α : Type} (k : Nat) (hk : 1 ≤ k) :
    ∀ l : List α, ∀ c ∈ chunks k l, c.length ≤ k ∧ ∀ x ∈ c, x ∈ l
  | [] => by
      intro c hc
      rw [show chunks k ([] : List α) = [] from rfl] at hc
      exact absurd hc (List.not_mem_nil c)
  | a :: t => by
      intro c hc
      rw [chunks_cons] at hc
      rcases List.mem_cons.mp hc with rfl | hcr
      · constructor
        · simp only [List.length_cons, List.length_take]
          omega
        · intro x hx
          rcases List.mem_cons.mp hx with rfl | hxt
          · exact List.mem_cons_self x _
          · exact List.mem_cons_of_mem a (List.take_subset _ _ hxt)
      · have hrec := chunks_props k hk (t.drop (k - 1)) c hcr
        exact ⟨hrec.1, fun x hx =>
          List.mem_cons_of_mem a (List.drop_subset _ _ (hrec.2 x hx))⟩
termination_by l => l.length
decreasing_by simp only [List.length_drop, List.length_cons]; omega

theorem chunks_append_full {α : Type} (k : Nat) (hk : 1 ≤ k) (x y : List α)
    (hx : x.length = k) : chunks k (x ++ y) = x :: chunks k y := by
  rcases x with _ | ⟨a, t⟩
  · simp at hx
    omega
  · rw [List.cons_append, chunks_cons]
    have ht : t.length = k - 1 := by
      simp only [List.length_cons] at hx
      omega
    congr 1
    · rw [← ht, List.take_left]
    · rw [← ht, List.drop_left]


theorem chunks6_bits_flat :
    ∀ l : List Nat, (∀ x ∈ l, x ≤ 1) →
      (chunks 6 l).flatMap (fun c => bits6 (accumBits c 32 0)) =
        l ++ List.replicate ((6 - l.length % 6) % 6) 0
  | [], _ => rfl
  | a :: t, h1 => by
      rw [chunks_cons, List.flatMap_cons]
      by_cases hge : 5 ≤ t.length
      · have hmem : ∀ x ∈ a :: t.take (6 - 1), x ≤ 1 := by
          intro x hx
          rcases List.mem_cons.mp hx with rfl | hxt
          · exact h1 x (List.mem_cons_self x t)
          · exact h1 x (List.mem_cons_of_mem a (List.take_subset _ _ hxt))
        have hchunk : (a :: t.take (6 - 1)).length = 6 := by
          simp only [List.length_cons, List.length_take]
          omega
        have hb := (bits6_accumBits _ hmem (by omega)).1
        rw [hchunk] at hb
        have ih := chunks6_bits_flat (t.drop (6 - 1))
          (fun x hx => h1 x (List.mem_cons_of_mem a (List.drop_subset _ _ hx)))
        rw [hb, ih]
        have hz : (6 - (t.drop (6 - 1)).length % 6) % 6 = (6 - (a :: t).length % 6) % 6 := by
          simp only [List.length_drop, List.length_cons]
          omega
        rw [hz]
        simp only [Nat.sub_self, List.replicate_zero, List.append_nil, List.cons_append]
        rw [← List.append_assoc, List.take_append_drop]
      · have htake : t.take (6 - 1) = t := List.take_of_length_le (by omega)
        have hdrop : t.drop (6 - 1) = [] := List.drop_eq_nil_of_le (by omega)
        rw [htake, hdrop]
        have hb := (bits6_accumBits (a :: t) h1 (by simp only [List.length_cons]; omega)).1
        rw [hb]
        have hzz : (6 - (a :: t).length % 6) % 6 = 6 - (a :: t).length := by
          simp only [List.length_cons]
          omega
        rw [hzz]
        simp [chunks, chunksF]
termination_by l => l.length
decreasing_by simp only [List.length_drop, List.length_cons]; omega

theorem b64ValChar_ne_61 (v : Nat) : b64ValChar v ≠ 61 := by
  unfold b64ValChar
  split_ifs <;> omega

theorem b64CharVal_b64ValChar : ∀ v < 64, b64CharVal (b64ValChar v) = v := by
  decide

theorem b64CharVal_61 : b64CharVal 61 = 65 := by decide

theorem takeWhile_replicate_append (p : Nat → Bool) (a : Nat) (hp : p a = true) :
    ∀ (n : Nat) (t : List Nat),
      (List.replicate n a ++ t).takeWhile p = List.replicate n a ++ t.takeWhile p
  | 0, t => by simp
  | n + 1, t => by
      simp only [List.replicate_succ, List.cons_append, List.takeWhile_cons, hp,
        if_true]
      rw [takeWhile_replicate_append p a hp n t]

theorem takeWhile_eq_nil_of_ne (t : List Nat) (h : ∀ x ∈ t, x ≠ 61) :
    t.takeWhile (fun c => c == 61) = [] := by
  cases t with
  | nil => rfl
  | cons x u =>
    have hx : (x == 61) = false := by
      simp only [beq_eq_false_iff_ne]
      exact h x (List.mem_cons_self x u)
    simp [List.takeWhile_cons, hx]

theorem trailingEquals_append_rep (l : List Nat) (p : Nat) (h : ∀ x ∈ l, x ≠ 61) :
    trailingEquals (l ++ List.replicate p 61) = p := by
  unfold trailingEquals
  rw [List.reverse_append, List.reverse_replicate,
    takeWhile_replicate_append _ 61 (by simp) p l.reverse,
    takeWhile_eq_nil_of_ne _ (fun x hx => h x (List.mem_reverse.mp hx))]
  simp

theorem chunks8_bits8 : ∀ B : List Nat, (∀ b ∈ B, b < 256) →
    (chunks 8 (B.flatMap bits8)).map (fun c => accumBits c 128 0) = B
  | [], _ => rfl
  | b :: t, h => by
      rw [List.flatMap_cons, chunks_append_full 8 (by norm_num) _ _ (length_bits8 b),
        List.map_cons, accumBits_bits8 b (h b (List.mem_cons_self b t)),
        chunks8_bits8 t (fun x hx => h x (List.mem_cons_of_mem b hx))]

theorem length_flatMap_bits8 : ∀ B : List Nat, (B.flatMap bits8).length = 8 * B.length
  | [] => rfl
  | b :: t => by
      rw [List.flatMap_cons, List.length_append, length_bits8,
        length_flatMap_bits8 t]
      simp only [List.length_cons]
      omega

theorem mem_flatMap_bits8 (B : List Nat) : ∀ x ∈ B.flatMap bits8, x ≤ 1 := by
  intro x hx
  rcases List.mem_flatMap.mp hx with ⟨b, _, hxb⟩
  exact mem_bits8_le_one b x hxb

theorem from_base64_to_base64 (B : List Nat) (h : ∀ b ∈ B, b < 256) :
    from_base64 (to_base64 B) = B := by
  set bitsB := B.flatMap bits8 with hbits
  set vals := (chunks 6 bitsB).map (fun c => accumBits c 32 0) with hvals
  set chars := (chunks 6 bitsB).map (fun c => b64ValChar (accumBits c 32 0)) with hchars
  set p := if B.length % 3 > 0 then 3 - B.length % 3 else 0 with hp
  have hb1 : ∀ x ∈ bitsB, x ≤ 1 := mem_flatMap_bits8 B
  have hlenbits : bitsB.length = 8 * B.length := length_flatMap_bits8 B
  have hvlt : ∀ v ∈ vals, v < 64 := by
    intro v hv
    rw [hvals] at hv
    rcases List.mem_map.mp hv with ⟨c, hc, rfl⟩
    have hprops := chunks_props 6 (by norm_num) bitsB c hc
    exact (bits6_accumBits c (fun x hx => hb1 x (hprops.2 x hx)) hprops.1).2
  have hchars_eq : chars = vals.map b64ValChar := by
    rw [hchars, hvals, List.map_map]
    rfl
  have hcne : ∀ x ∈ chars, x ≠ 61 := by
    intro x hx
    rw [hchars] at hx
    rcases List.mem_map.mp hx with ⟨c, _, rfl⟩
    exact b64ValChar_ne_61 _
  have hto : to_base64 B = chars ++ List.replicate p 61 := rfl
  rw [hto]
  unfold from_base64
  rw [trailingEquals_append_rep chars p hcne]
  have hlenchars : chars.length = (8 * B.length + 5) / 6 := by
    rw [hchars, List.length_map, chunks_length 6 (by norm_num) bitsB, hlenbits]
    omega
  have hbitscount :
      ((chars ++ List.replicate p 61).length - p) * 6 - p * 2 = 8 * B.length := by
    rw [List.length_append, List.length_replicate, hlenchars]
    by_cases h0 : B.length % 3 = 0
    · have hp0 : p = 0 := by rw [hp, if_neg (by omega)]
      rw [hp0]
      omega
    · have hp0 : p = 3 - B.length % 3 := by rw [hp, if_pos (by omega)]
      rw [hp0]
      omega
  rw [hbitscount]
  have hmapfil :
      ((chars ++ List.replicate p 61).map b64CharVal).filter (fun v => v < 65) = vals := by
    rw [List.map_append, List.filter_append]
    have h1 : (chars.map b64CharVal).filter (fun v => v < 65) = vals := by
      rw [hchars_eq, List.map_map]
      simp only [Function.comp_def]
      have hid : vals.map (fun v => b64CharVal (b64ValChar v)) = vals := by
        rw [List.map_congr_left (fun v hv => b64CharVal_b64ValChar v (hvlt v hv)),
          List.map_id']
      rw [hid]
      rw [List.filter_eq_self.mpr]
      intro v hv
      simp only [decide_eq_true_eq]
      exact Nat.lt_trans (hvlt v hv) (by norm_num)
    have h2 : ((List.replicate p 61).map b64CharVal).filter (fun v => v < 65) = [] := by
      rw [List.map_replicate, b64CharVal_61]
      rw [List.filter_eq_nil_iff.mpr]
      intro a ha
      rw [List.eq_of_mem_replicate ha]
      simp
    rw [h1, h2, List.append_nil]
  rw [hmapfil]
  have hflat : vals.flatMap bits6 =
      (chunks 6 bitsB).flatMap (fun c => bits6 (accumBits c 32 0)) := by
    rw [hvals, List.flatMap_map]
  rw [hflat, chunks6_bits_flat bitsB hb1]
  have htake :
      ((bitsB ++ List.replicate ((6 - bitsB.length % 6) % 6) 0).take (8 * B.length)) =
        bitsB := by
    rw [← hlenbits]
    exact List.take_left bitsB _
  rw [htake, hbits]
  exact chunks8_bits8 B h

/-- Claim C1 (confirmed): decoding inverts encoding for both codecs —
`from_hex (to_hex B) = B` and `from_base64 (to_base64 B) = B` for every
byte buffer `B`. -/
theorem claim_C1 :
    ∀ B : List Nat, (∀ b ∈ B, b < 256) →
      from_hex (to_hex B) = B ∧ from_base64 (to_base64 B) = B :=
  fun B h => ⟨from_hex_to_hex B h, from_base64_to_base64 B h⟩

theorem claim_C1_witness :
    from_hex (to_hex [77, 97, 110]) = [77, 97, 110] ∧
      from_base64 (to_base64 [77, 97, 110]) = [77, 97, 110] :=
  claim_C1 [77, 97, 110] (by decide)

/-- Whether a character is in the base64 alphabet A-Z, a-z, 0-9, +, /
(claim-side notion used by C10's filtering statement). -/
def isB64Alpha (c : Nat) : Bool :=
  (65 ≤ c && c ≤ 90) || (97 ≤ c && c ≤ 122) || (48 ≤ c && c ≤ 57) || c == 43 || c == 47

/-- The claim-side filtered string of C10: remove every character that is
outside the base64 alphabet and not part of the trailing `=` padding. -/
def b64ClaimFilter (s : List Nat) : List Nat :=
  (s.take (s.length - trailingEquals s)).filter isB64Alpha ++
    List.replicate (trailingEquals s) 61

theorem b64CharVal_lt_of_alpha (c : Nat) (h : isB64Alpha c = true) :
    b64CharVal c < 65 := by
  unfold isB64Alpha at h
  unfold b64CharVal
  simp only [Bool.or_eq_true, Bool.and_eq_true, decide_eq_true_eq, beq_iff_eq] at h
  split_ifs <;> omega

theorem b64CharVal_eq_65_of_not_alpha (c : Nat) (h : isB64Alpha c = false) :
    b64CharVal c = 65 := by
  unfold isB64Alpha at h
  unfold b64CharVal
  simp only [Bool.or_eq_false_iff, Bool.and_eq_false_iff, beq_eq_false_iff_ne,
    decide_eq_false_iff_not] at h
  split_ifs <;> omega

theorem symbols_filter_alpha :
    ∀ l : List Nat,
      (((l.filter isB64Alpha).map b64CharVal).filter (fun v => v < 65)) =
        ((l.map b64CharVal).filter (fun v => v < 65))
  | [] => rfl
  | c :: t => by
      have ih := symbols_filter_alpha t
      rcases ha : isB64Alpha c with _ | _
      · have h65 := b64CharVal_eq_65_of_not_alpha c ha
        simp only [List.filter_cons, List.map_cons, ha, h65]
        simpa using ih
      · have hlt := b64CharVal_lt_of_alpha c ha
        simp only [List.filter_cons, List.map_cons, ha]
        simp only [if_true, List.map_cons, List.filter_cons,
          decide_eq_true hlt]
        simpa using ih

theorem trailing_split (s : List Nat) :
    s = s.take (s.length - trailingEquals s) ++ List.replicate (trailingEquals s) 61 := by
  set X := (s.reverse.dropWhile (fun c => c == 61)).reverse with hX
  have hrev :
      s.reverse.takeWhile (fun c => c == 61) ++ s.reverse.dropWhile (fun c => c == 61) =
        s.reverse :=
    List.takeWhile_append_dropWhile (fun c => c == 61) s.reverse
  have hrep :
      s.reverse.takeWhile (fun c => c == 61) = List.replicate (trailingEquals s) 61 := by
    rw [List.eq_replicate_iff]
    refine ⟨rfl, fun b hb => ?_⟩
    have hb61 := List.mem_takeWhile_imp hb
    simpa using hb61
  have hs : s = X ++ List.replicate (trailingEquals s) 61 := by
    have h1 : s.reverse.reverse =
        (s.reverse.takeWhile (fun c => c == 61) ++
          s.reverse.dropWhile (fun c => c == 61)).reverse := by
      rw [hrev]
    rw [List.reverse_reverse, List.reverse_append, hrep, List.reverse_replicate] at h1
    exact h1
  have hlen : X.length = s.length - trailingEquals s := by
    have h1 := congrArg List.length hrev
    rw [List.length_append, List.length_reverse] at h1
    rw [hX, List.length_reverse]
    unfold trailingEquals
    omega
  have htake : s.take (s.length - trailingEquals s) = X := by
    have h2 : s.take (s.length - trailingEquals s) =
        (X ++ List.replicate (trailingEquals s) 61).take (s.length - trailingEquals s) := by
      rw [← hs]
    rw [h2, List.take_left' hlen]
  conv_lhs => rw [hs]
  rw [htake]

/-- Claim C10 (corrected): non-alphabet characters ARE treated as non-data
— the stream of 6-bit data symbols of `s` equals that of the claim's
filtered string `s'` — but they still count toward the character total
from which the decoded bit count `(len − numEquals)*6 − numEquals*2` is
computed (and junk can also break trailing-padding detection), so the
decoded BYTES of `s` and `s'` can differ. -/
theorem claim_C10 :
    ∀ s : List Nat,
      ((s.map b64CharVal).filter (fun v => v < 65)) =
        (((b64ClaimFilter s).map b64CharVal).filter (fun v => v < 65)) := by
  intro s
  unfold b64ClaimFilter
  rw [List.map_append, List.filter_append]
  have h2 : ((List.replicate (trailingEquals s) 61).map b64CharVal).filter
      (fun v => v < 65) = [] := by
    rw [List.map_replicate, b64CharVal_61, List.filter_eq_nil_iff.mpr]
    intro a ha
    rw [List.eq_of_mem_replicate ha]
    simp
  rw [h2, List.append_nil, symbols_filter_alpha]
  conv_lhs => rw [trailing_split s]
  rw [List.map_append, List.filter_append, h2, List.append_nil]

/-- Claim C10 counterexample: for `s` = "T#Q==" the claim's filtered
string is `s'` = "TQ==", but `from_base64 s = [0x4d, 0x00]` while
`from_base64 s' = [0x4d]` — the junk character `#` contributes 6 phantom
bits to the computed bit count, so the outputs differ and the claimed
equality fails. -/
theorem claim_C10_counterexample :
    b64ClaimFilter [84, 35, 81, 61, 61] = [84, 81, 61, 61] ∧
      from_base64 [84, 35, 81, 61, 61] = [77, 0] ∧
      from_base64 [84, 81, 61, 61] = [77] ∧
      ¬from_base64 [84, 35, 81, 61, 61] =
          from_base64 (b64ClaimFilter [84, 35, 81, 61, 61]) := by
  decide
